import Mathlib

/-
Verification of src/rule_merge.py: a shallow embedding of the rule
normalization, priority merge, sorting and output encoding functions,
with theorems about the merge and encoding behaviour.
-/

/-- The apostrophe character (codepoint 39), an element of the strip set. -/
def quoteChar : Char := Char.ofNat 39

/-- Whitespace characters stripped by python str.strip() with no argument:
every character for which python str.isspace() holds (ASCII whitespace,
the information separators, NEL, NBSP and the Unicode space characters). -/
def wsChars : List Char :=
  [' ', '\t', '\n', '\r', '\x0b', '\x0c', '\x1c', '\x1d', '\x1e', '\x1f',
   '\x85', '\xa0', ' ', ' ', ' ', ' ', ' ', ' ',
   ' ', ' ', ' ', ' ', ' ', ' ', ' ',
   ' ', ' ', ' ', '　']

/-- Characters stripped from both ends by rule.strip in process_rule. -/
def decorChars : List Char := [quoteChar, '-', '+', ' ', '.']

/-- Remove leading and trailing characters drawn from cs, as python str.strip(cs). -/
def stripCharsL (cs : List Char) (l : List Char) : List Char :=
  (((l.dropWhile (fun c => decide (c ∈ cs))).reverse.dropWhile
      (fun c => decide (c ∈ cs))).reverse)

/-- The part of the line before the first hash, as rule.split with hash, index 0. -/
def beforeHash (s : String) : String :=
  String.mk (s.data.takeWhile (fun c => decide (c ≠ '#')))

/-- python str.strip() with no argument. -/
def pyStrip (s : String) : String := String.mk (stripCharsL wsChars s.data)

/-- python rule.strip on the decoration set. -/
def stripDecor (s : String) : String := String.mk (stripCharsL decorChars s.data)

/-- python str.lower restricted to the ASCII mapping used here. -/
def toLowerStr (s : String) : String := String.mk (s.data.map Char.toLower)

/-- Does the char list contain pat as a contiguous infix (python `in`). -/
def hasInfixL (pat : List Char) : List Char → Bool
  | [] => pat.isEmpty
  | c :: t => pat.isPrefixOf (c :: t) || hasInfixL pat t

/-- python `sub in s` for strings. -/
def strContainsSub (s pat : String) : Bool := hasInfixL pat.data s.data

/-- The HTML-leakage test of process_rule. -/
def hasHtmlMarker (s : String) : Bool :=
  decide ('<' ∈ s.data) || decide ('>' ∈ s.data) ||
    strContainsSub s "class=" || strContainsSub s "data-"

/-- The nine recognized matchType prefixes, in source order. -/
def prefixes : List String :=
  ["DOMAIN,", "DOMAIN-SUFFIX,", "DOMAIN-KEYWORD,", "DOMAIN-REGEX,",
   "IP-CIDR,", "IP-CIDR6,", "IP-ASN,", "PROCESS-NAME,", "USER-AGENT,"]

/-- Does s start with any of the given strings (python any-startswith). -/
def startsWithAny (ps : List String) (s : String) : Bool :=
  ps.any (fun p => p.data.isPrefixOf s.data)

/-- Comment- and whitespace-stripped line: rule.split('#')[0].strip(). -/
def r1Of (rule : String) : String := pyStrip (beforeHash rule)

/-- The decoration-stripped core of a line. -/
def coreOf (rule : String) : String := stripDecor (r1Of rule)

/-- process_rule of src/rule_merge.py: normalize one raw line or reject it. -/
def process_rule (rule : String) : Option String :=
  if r1Of rule = "" then none
  else if toLowerStr (r1Of rule) = "payload:" then none
  else if hasHtmlMarker (coreOf rule) = true then none
  else if startsWithAny prefixes (coreOf rule) = true then some (coreOf rule)
  else some ("DOMAIN-SUFFIX," ++ coreOf rule)

/-- Lexicographic strict comparison of char lists (python string comparison). -/
def listLtB : List Char → List Char → Bool
  | [], [] => false
  | [], _ :: _ => true
  | _ :: _, [] => false
  | a :: as, b :: bs => if a < b then true else if b < a then false else listLtB as bs

/-- x.split(',')[0]: the text before the first comma, as a char list. -/
def fieldKey (x : String) : List Char := x.data.takeWhile (fun c => decide (c ≠ ','))

/-- Strict comparison by the sort key of sort_rules: the pair of the text
before the first comma and the whole line (python tuple comparison). -/
def keyLtB (x y : String) : Bool :=
  listLtB (fieldKey x) (fieldKey y) ||
    (decide (fieldKey x = fieldKey y) && listLtB x.data y.data)

/-- The sorting relation of sort_rules (reflexive closure of the key order). -/
def ruleLe (x y : String) : Prop := keyLtB x y = true ∨ x = y

instance : DecidableRel ruleLe :=
  fun x y => inferInstanceAs (Decidable (_ ∨ _))

def sort_rules (rules : List String) : List String := rules.insertionSort ruleLe

/-- processing a whole list of raw lines, keeping the accepted ones
(the repeated `processed_rule = process_rule(rule); if processed_rule`
pattern of the source). -/
def processList (rules : List String) : List String := rules.filterMap process_rule

/-- The third-party loop of merge_rules_with_priority: process each rule and
append it unless an equal rule is already in the accumulated list. -/
def addRemotes (acc : List String) : List String → List String
  | [] => acc
  | r :: rs =>
    match process_rule r with
    | none => addRemotes acc rs
    | some x => if x ∈ acc then addRemotes acc rs else addRemotes (acc ++ [x]) rs

/-- Result dict of merge_rules_with_priority: payload plus custom_count. -/
structure MergeResult where
  payload : List String
  custom_count : Nat
  deriving DecidableEq

/-- merge_rules_with_priority of src/rule_merge.py. -/
def merge_rules_with_priority (custom_rules third_party_rules : List String) :
    MergeResult :=
  let merged := processList custom_rules
  ⟨sort_rules (addRemotes merged third_party_rules), merged.length⟩

/-- merge_rules of src/rule_merge.py. Python sorts `set(merged)`; since the
sort key determines the element, sorted(set(l)) is the sorted list of the
distinct elements of l, which we model as sorting `l.dedup`. -/
def merge_rules (rule_sets : List (List String)) : List String :=
  sort_rules ((rule_sets.foldr (fun s acc => processList s ++ acc) []).dedup)

/-- The text written by save_rules_txt: each rule verbatim, newline-terminated. -/
def saveRulesTxt : List String → String
  | [] => ""
  | r :: rs => r ++ "\n" ++ saveRulesTxt rs

/-- Split a char list at every occurrence of sep (python str.split(sep)). -/
def splitOnCharL (sep : Char) : List Char → List (List Char)
  | [] => [[]]
  | c :: t =>
    if c = sep then [] :: splitOnCharL sep t
    else
      match splitOnCharL sep t with
      | [] => [[c]]
      | h :: t2 => (c :: h) :: t2

/-- content.splitlines() as used by parse_rules (newline-separated lines;
empty lines are discarded by the caller, so terminator variants are moot). -/
def splitLines (s : String) : List String := (splitOnCharL '\n' s.data).map String.mk

/-- parse_rules of src/rule_merge.py. The yml branch calls the external
yaml.safe_load, which is passed in as yamlParse, returning the payload list;
the txt branch keeps stripped, nonempty, non-comment lines; any other format
raises inside the try block and the handler returns an empty payload. -/
def parse_rules (yamlParse : String → List String) (content : String)
    (file_format : String) : List String :=
  if file_format = "yml" then yamlParse content
  else if file_format = "txt" ∨ file_format = "list" then
    (splitLines content).filterMap (fun line =>
      let t := pyStrip line
      if t = "" then none
      else if "#".data.isPrefixOf t.data then none
      else some t)
  else []

/-- urlparse(url).path: after the scheme marker, skip the authority up to the
first slash; the path stops at the first question mark or hash. -/
def urlPathOf (s : String) : List Char :=
  let afterScheme :=
    if "https://".data.isPrefixOf s.data then s.data.drop 8
    else if "http://".data.isPrefixOf s.data then s.data.drop 7
    else s.data
  (afterScheme.dropWhile (fun c => decide (c ≠ '/'))).takeWhile
    (fun c => decide (c ≠ '?') && decide (c ≠ '#'))

/-- os.path.splitext extension of the last path segment: the part from the
last dot, provided some earlier character of the segment is not a dot. -/
def extOf (path : List Char) : List Char :=
  let base := (path.reverse.takeWhile (fun c => decide (c ≠ '/'))).reverse
  let revBase := base.reverse
  let afterDot := revBase.takeWhile (fun c => decide (c ≠ '.'))
  if afterDot.length = revBase.length then []
  else if (revBase.drop (afterDot.length + 1)).all (fun c => decide (c = '.')) then []
  else '.' :: (afterDot.reverse)

/-- get_file_format of src/rule_merge.py: URL inputs dispatch on the lowered
path extension and may raise; other inputs are content-sniffed and never
raise. -/
def get_file_format (content_or_url : String) : Except String String :=
  if "http://".data.isPrefixOf content_or_url.data
      ∨ "https://".data.isPrefixOf content_or_url.data then
    if (extOf (urlPathOf content_or_url)).map Char.toLower = ".yml".data
        ∨ (extOf (urlPathOf content_or_url)).map Char.toLower = ".yaml".data then
      .ok "yml"
    else if (extOf (urlPathOf content_or_url)).map Char.toLower = ".txt".data
        ∨ (extOf (urlPathOf content_or_url)).map Char.toLower = ".list".data then
      .ok "txt"
    else .error ("Unsupported file format: "
      ++ String.mk ((extOf (urlPathOf content_or_url)).map Char.toLower))
  else
    if "DOMAIN".data.isPrefixOf (pyStrip content_or_url).data
        ∨ "IP-CIDR".data.isPrefixOf (pyStrip content_or_url).data
        ∨ "USER-AGENT".data.isPrefixOf (pyStrip content_or_url).data then .ok "txt"
    else if "payload:".data.isPrefixOf (pyStrip content_or_url).data
        ∨ "---".data.isPrefixOf (pyStrip content_or_url).data then .ok "yml"
    else .ok "txt"

/-- The contents stored for one category (python all_downloaded_rules[name],
keeping only the content component that merge_proxy_and_ai_rules reads). -/
def contentsFor (all : List (String × List String)) (name : String) : List String :=
  match all.lookup name with
  | some cs => cs
  | none => []

/-- The per-content processing loop of merge_proxy_and_ai_rules: re-sniff the
format from the content, parse, normalize; a format error propagates (the
handler of merge_proxy_and_ai_rules catches IOError only). -/
def processedOfContents (yamlParse : String → List String) :
    List String → Except String (List String)
  | [] => .ok []
  | c :: rest =>
    match get_file_format c with
    | .error e => .error e
    | .ok fmt =>
      match processedOfContents yamlParse rest with
      | .error e => .error e
      | .ok xs => .ok (processList (parse_rules yamlParse c fmt) ++ xs)

/-- The lines written by merge_proxy_and_ai_rules: Proxy then Ai contents are
parsed and normalized, the union is deduplicated (python set) and sorted,
and each rule is written verbatim. -/
def mergeProxyAiLines (yamlParse : String → List String)
    (all : List (String × List String)) : Except String (List String) :=
  match processedOfContents yamlParse
      (contentsFor all "Proxy" ++ contentsFor all "Ai") with
  | .error e => .error e
  | .ok merged => .ok (sort_rules merged.dedup)

/-- A yaml stub for instantiating theorems at concrete non-yaml inputs. -/
def noYaml : String → List String := fun _ => []

/-- The apostrophe as a one-character string. -/
def quoteStr : String := String.mk [quoteChar]

/-- The Payload-dialect text the spec predicts for DOMAIN,a.com and
DOMAIN-SUFFIX,b.com. -/
def payloadClaimText : String :=
  "payload:\n  " ++ quoteStr ++ "a.com" ++ quoteStr ++ "\n  " ++ quoteStr
    ++ "+.b.com" ++ quoteStr ++ "\n"

/-- The value part of a canonical rule: the text after the first comma. -/
def afterComma (s : String) : String :=
  String.mk ((s.data.dropWhile (fun c => decide (c ≠ ','))).drop 1)

/- ### The sort order: python sorted with key (rule.split-at-comma-head, rule) -/

theorem listLtB_irrefl (l : List Char) : listLtB l l = false := by
  induction l with
  | nil => rfl
  | cons a as ih => simp [listLtB, ih]

theorem listLtB_asymm {a b : List Char} (h : listLtB a b = true) :
    listLtB b a = false := by
  induction a generalizing b with
  | nil => cases b with
    | nil => simpa [listLtB] using h
    | cons y ys => simp [listLtB]
  | cons x xs ih => cases b with
    | nil => simp [listLtB] at h
    | cons y ys =>
      by_cases hxy : x < y
      · simp [listLtB, hxy, asymm hxy, not_lt_of_lt hxy]
      · by_cases hyx : y < x
        · simp [listLtB, hxy, hyx] at h
        · simp only [listLtB, if_neg hxy, if_neg hyx] at h
          simp [listLtB, hxy, hyx, ih h]

theorem listLtB_trans {a b c : List Char} (h1 : listLtB a b = true)
    (h2 : listLtB b c = true) : listLtB a c = true := by
  induction a generalizing b c with
  | nil => cases c with
    | nil =>
      cases b with
      | nil => simpa [listLtB] using h2
      | cons y ys => simp [listLtB] at h2
    | cons z zs => simp [listLtB]
  | cons x xs ih => cases b with
    | nil => simp [listLtB] at h1
    | cons y ys => cases c with
      | nil => simp [listLtB] at h2
      | cons z zs =>
        by_cases hxy : x < y
        · by_cases hyz : y < z
          · simp [listLtB, lt_trans hxy hyz]
          · by_cases hzy : z < y
            · simp [listLtB, hyz, hzy] at h2
            · have hyz' : y = z := le_antisymm (not_lt.mp hzy) (not_lt.mp hyz)
              subst hyz'
              simp [listLtB, hxy]
        · by_cases hyx : y < x
          · simp [listLtB, hxy, hyx] at h1
          · have hxy' : x = y := le_antisymm (not_lt.mp hyx) (not_lt.mp hxy)
            subst hxy'
            simp only [listLtB, if_neg hxy, if_neg hyx] at h1
            by_cases hyz : x < z
            · simp [listLtB, hyz]
            · by_cases hzy : z < x
              · simp [listLtB, hyz, hzy] at h2
              · simp only [listLtB, if_neg hyz, if_neg hzy] at h2 ⊢
                exact ih h1 h2

theorem listLtB_connex {a b : List Char} (h1 : listLtB a b = false)
    (h2 : listLtB b a = false) : a = b := by
  induction a generalizing b with
  | nil => cases b with
    | nil => rfl
    | cons y ys => simp [listLtB] at h1
  | cons x xs ih => cases b with
    | nil => simp [listLtB] at h2
    | cons y ys =>
      by_cases hxy : x < y
      · simp [listLtB, hxy] at h1
      · by_cases hyx : y < x
        · simp [listLtB, hyx, hxy] at h2
        · have hxy' : x = y := le_antisymm (not_lt.mp hyx) (not_lt.mp hxy)
          subst hxy'
          simp only [listLtB, if_neg hxy, if_neg hyx] at h1 h2
          exact congrArg (x :: ·) (ih h1 h2)

theorem keyLtB_asymm {x y : String} (h : keyLtB x y = true) :
    keyLtB y x = false := by
  simp only [keyLtB, Bool.or_eq_true, Bool.and_eq_true, decide_eq_true_eq] at h
  simp only [keyLtB, Bool.or_eq_false_iff, Bool.and_eq_false_iff,
    decide_eq_false_iff_not]
  rcases h with h | ⟨he, hd⟩
  · refine ⟨listLtB_asymm h, Or.inl (fun e => ?_)⟩
    rw [e] at h
    exact absurd h (by simp [listLtB_irrefl])
  · exact ⟨by rw [he]; exact listLtB_irrefl _, Or.inr (listLtB_asymm hd)⟩

theorem keyLtB_trans {x y z : String} (h1 : keyLtB x y = true)
    (h2 : keyLtB y z = true) : keyLtB x z = true := by
  simp only [keyLtB, Bool.or_eq_true, Bool.and_eq_true, decide_eq_true_eq] at h1 h2 ⊢
  rcases h1 with h1 | ⟨he1, hd1⟩ <;> rcases h2 with h2 | ⟨he2, hd2⟩
  · exact Or.inl (listLtB_trans h1 h2)
  · exact Or.inl (he2 ▸ h1)
  · exact Or.inl (he1 ▸ h2)
  · exact Or.inr ⟨he1.trans he2, listLtB_trans hd1 hd2⟩

theorem keyLtB_connex {x y : String} (h1 : keyLtB x y = false)
    (h2 : keyLtB y x = false) : x = y := by
  simp only [keyLtB, Bool.or_eq_false_iff, Bool.and_eq_false_iff,
    decide_eq_false_iff_not] at h1 h2
  obtain ⟨ha1, hb1⟩ := h1
  obtain ⟨ha2, hb2⟩ := h2
  have he : fieldKey x = fieldKey y := listLtB_connex ha1 ha2
  rcases hb1 with hb1 | hb1
  · exact absurd he hb1
  · rcases hb2 with hb2 | hb2
    · exact absurd he.symm hb2
    · cases x with
      | mk dx => cases y with
        | mk dy => exact congrArg String.mk (listLtB_connex hb1 hb2)

theorem ruleLe_isTotal : IsTotal String ruleLe :=
  ⟨fun a b => by
    cases h1 : keyLtB a b
    · cases h2 : keyLtB b a
      · exact Or.inl (Or.inr (keyLtB_connex h1 h2))
      · exact Or.inr (Or.inl h2)
    · exact Or.inl (Or.inl h1)⟩

theorem ruleLe_isTrans : IsTrans String ruleLe :=
  ⟨fun a b c h1 h2 => by
    rcases h1 with h1 | rfl
    · rcases h2 with h2 | rfl
      · exact Or.inl (keyLtB_trans h1 h2)
      · exact Or.inl h1
    · exact h2⟩

theorem ruleLe_isAntisymm : IsAntisymm String ruleLe :=
  ⟨fun a b h1 h2 => by
    rcases h1 with h1 | rfl
    · rcases h2 with h2 | rfl
      · exact absurd h1 (by simp [keyLtB_asymm h2])
      · rfl
    · rfl⟩

/- ### Facts about sort_rules -/

theorem sort_rules_sorted (l : List String) : List.Sorted ruleLe (sort_rules l) := by
  haveI := ruleLe_isTotal
  haveI := ruleLe_isTrans
  exact List.sorted_insertionSort ruleLe l

theorem sort_rules_perm (l : List String) : (sort_rules l).Perm l :=
  List.perm_insertionSort ruleLe l

theorem sort_rules_of_sorted {l : List String} (h : List.Sorted ruleLe l) :
    sort_rules l = l :=
  h.insertionSort_eq

theorem sort_rules_eq_of_perm {l1 l2 : List String} (h : l1.Perm l2) :
    sort_rules l1 = sort_rules l2 := by
  haveI := ruleLe_isAntisymm
  exact List.eq_of_perm_of_sorted
    ((sort_rules_perm l1).trans (h.trans (sort_rules_perm l2).symm))
    (sort_rules_sorted l1) (sort_rules_sorted l2)

/- ### Facts about addRemotes -/

theorem addRemotes_spec (l : List String) : ∀ acc, ∃ extra,
    addRemotes acc l = acc ++ extra ∧ extra.Nodup ∧
      ∀ x, x ∈ extra ↔ x ∉ acc ∧ ∃ r ∈ l, process_rule r = some x := by
  induction l with
  | nil =>
    intro acc
    exact ⟨[], by simp [addRemotes], List.nodup_nil, by simp⟩
  | cons r rs ih =>
    intro acc
    cases hpr : process_rule r with
    | none =>
      obtain ⟨extra, he, hn, hm⟩ := ih acc
      refine ⟨extra, by simp [addRemotes, hpr, he], hn, fun x => ?_⟩
      rw [hm x]
      constructor
      · rintro ⟨hx, r2, hr2, hp2⟩
        exact ⟨hx, r2, List.mem_cons_of_mem _ hr2, hp2⟩
      · rintro ⟨hx, r2, hr2, hp2⟩
        rcases List.mem_cons.mp hr2 with rfl | hr2
        · rw [hpr] at hp2; cases hp2
        · exact ⟨hx, r2, hr2, hp2⟩
    | some y =>
      by_cases hy : y ∈ acc
      · obtain ⟨extra, he, hn, hm⟩ := ih acc
        refine ⟨extra, by simp [addRemotes, hpr, hy, he], hn, fun x => ?_⟩
        rw [hm x]
        constructor
        · rintro ⟨hx, r2, hr2, hp2⟩
          exact ⟨hx, r2, List.mem_cons_of_mem _ hr2, hp2⟩
        · rintro ⟨hx, r2, hr2, hp2⟩
          rcases List.mem_cons.mp hr2 with rfl | hr2
          · rw [hpr] at hp2
            injection hp2 with hp2
            exact absurd (hp2 ▸ hy) hx
          · exact ⟨hx, r2, hr2, hp2⟩
      · obtain ⟨extra, he, hn, hm⟩ := ih (acc ++ [y])
        refine ⟨y :: extra, ?_, ?_, fun x => ?_⟩
        · simp [addRemotes, hpr, hy, he]
        · rw [List.nodup_cons]
          exact ⟨fun hyx => ((hm y).mp hyx).1 (by simp), hn⟩
        · constructor
          · intro hx
            rcases List.mem_cons.mp hx with rfl | hx2
            · exact ⟨hy, r, List.mem_cons_self r rs, hpr⟩
            · obtain ⟨hnotin, r2, hr2, hp2⟩ := (hm x).mp hx2
              exact ⟨fun hxacc => hnotin (List.mem_append_left _ hxacc), r2,
                List.mem_cons_of_mem _ hr2, hp2⟩
          · rintro ⟨hx, r2, hr2, hp2⟩
            rcases List.mem_cons.mp hr2 with rfl | hr2
            · rw [hpr] at hp2
              injection hp2 with hp2
              exact hp2 ▸ List.mem_cons_self y extra
            · by_cases hxy : x = y
              · exact hxy ▸ List.mem_cons_self y extra
              · refine List.mem_cons_of_mem _ ((hm x).mpr ⟨fun hmem => ?_, r2, hr2, hp2⟩)
                rcases List.mem_append.mp hmem with h2 | h2
                · exact hx h2
                · exact hxy (List.mem_singleton.mp h2)

theorem addRemotes_nodup {acc : List String} (h : acc.Nodup) (l : List String) :
    (addRemotes acc l).Nodup := by
  obtain ⟨extra, he, hn, hm⟩ := addRemotes_spec l acc
  rw [he, List.nodup_append]
  exact ⟨h, hn, fun x hx hx2 => ((hm x).mp hx2).1 hx⟩

theorem addRemotes_mem {x : String} {acc l : List String} :
    x ∈ addRemotes acc l ↔ x ∈ acc ∨ ∃ r ∈ l, process_rule r = some x := by
  obtain ⟨extra, he, hn, hm⟩ := addRemotes_spec l acc
  rw [he, List.mem_append, hm]
  constructor
  · rintro (h | ⟨h1, h2⟩)
    · exact Or.inl h
    · exact Or.inr h2
  · rintro (h | h2)
    · exact Or.inl h
    · by_cases hx : x ∈ acc
      · exact Or.inl hx
      · exact Or.inr ⟨hx, h2⟩

theorem addRemotes_count_of_mem {x : String} {acc : List String} (h : x ∈ acc)
    (l : List String) : (addRemotes acc l).count x = acc.count x := by
  obtain ⟨extra, he, hn, hm⟩ := addRemotes_spec l acc
  rw [he, List.count_append, List.count_eq_zero_of_not_mem
    (fun hx => ((hm x).mp hx).1 h)]
  exact Nat.add_zero _

theorem addRemotes_fixed : ∀ (l acc : List String),
    (∀ x ∈ l, process_rule x = some x) → (acc ++ l).Nodup →
    addRemotes acc l = acc ++ l := by
  intro l
  induction l with
  | nil => intro acc _ _; simp [addRemotes]
  | cons x xs ih =>
    intro acc hfix hnd
    have hx : process_rule x = some x := hfix x (List.mem_cons_self x xs)
    have hxacc : x ∉ acc := by
      rw [List.nodup_append] at hnd
      exact fun h2 => hnd.2.2 h2 (List.mem_cons_self x xs)
    have hrest : ((acc ++ [x]) ++ xs).Nodup := by
      rw [List.append_assoc]
      simpa using hnd
    rw [show addRemotes acc (x :: xs) = addRemotes (acc ++ [x]) xs by
        simp [addRemotes, hx, hxacc],
      ih (acc ++ [x]) (fun z hz => hfix z (List.mem_cons_of_mem _ hz)) hrest,
      List.append_assoc]
    rfl

/- ### Character-level stripping facts -/

theorem head?_dropWhile {p : Char → Bool} {l : List Char} {c : Char}
    (h : (l.dropWhile p).head? = some c) : p c = false := by
  induction l with
  | nil => simp [List.dropWhile] at h
  | cons a t ih =>
    rw [List.dropWhile_cons] at h
    by_cases ha : p a = true
    · rw [if_pos ha] at h
      exact ih h
    · rw [if_neg ha] at h
      injection h with h
      subst h
      exact Bool.eq_false_iff.mpr ha

theorem dropWhile_eq_self_of {p : Char → Bool} {l : List Char}
    (h : ∀ c, l.head? = some c → p c = false) : l.dropWhile p = l := by
  cases l with
  | nil => rfl
  | cons a t => rw [List.dropWhile_cons, if_neg (by simp [h a rfl])]

theorem mem_stripCharsL {cs : List Char} {l : List Char} {c : Char}
    (h : c ∈ stripCharsL cs l) : c ∈ l := by
  unfold stripCharsL at h
  rw [List.mem_reverse] at h
  have h2 : c ∈ (l.dropWhile (fun c => decide (c ∈ cs))).reverse :=
    List.Sublist.mem h (List.dropWhile_sublist _)
  rw [List.mem_reverse] at h2
  exact List.Sublist.mem h2 (List.dropWhile_sublist _)

theorem stripCharsL_last {cs : List Char} {l : List Char} {c : Char}
    (h : (stripCharsL cs l).getLast? = some c) : c ∉ cs := by
  unfold stripCharsL at h
  rw [List.getLast?_reverse] at h
  have := head?_dropWhile h
  simpa using this

theorem stripCharsL_head {cs : List Char} {l : List Char} {c : Char}
    (h : (stripCharsL cs l).head? = some c) : c ∉ cs := by
  unfold stripCharsL at h
  rw [List.head?_reverse] at h
  set B := (l.dropWhile (fun c => decide (c ∈ cs))).reverse.dropWhile
    (fun c => decide (c ∈ cs)) with hB
  have hBne : B ≠ [] := by
    intro e
    rw [e] at h
    simp at h
  obtain ⟨t, ht⟩ := List.dropWhile_suffix (l := (l.dropWhile
    (fun c => decide (c ∈ cs))).reverse) (fun c => decide (c ∈ cs))
  rw [← hB] at ht
  have h2 : ((l.dropWhile (fun c => decide (c ∈ cs))).reverse).getLast? = some c := by
    rw [← ht, List.getLast?_append_of_ne_nil _ hBne]
    exact h
  rw [List.getLast?_reverse] at h2
  have := head?_dropWhile h2
  simpa using this

theorem stripCharsL_eq_self {cs : List Char} {l : List Char}
    (hh : ∀ c, l.head? = some c → c ∉ cs)
    (hl : ∀ c, l.getLast? = some c → c ∉ cs) : stripCharsL cs l = l := by
  unfold stripCharsL
  have h1 : l.dropWhile (fun c => decide (c ∈ cs)) = l :=
    dropWhile_eq_self_of (fun c hc => by simp [hh c hc])
  rw [h1]
  have h2 : l.reverse.dropWhile (fun c => decide (c ∈ cs)) = l.reverse :=
    dropWhile_eq_self_of (fun c hc => by
      rw [List.head?_reverse] at hc
      simp [hl c hc])
  rw [h2, List.reverse_reverse]

/- ### Shape of process_rule outputs -/

theorem process_rule_cases {s x : String} (h : process_rule s = some x) :
    hasHtmlMarker (coreOf s) = false ∧
      ((startsWithAny prefixes (coreOf s) = true ∧ x = coreOf s) ∨
        (startsWithAny prefixes (coreOf s) = false ∧
          x = "DOMAIN-SUFFIX," ++ coreOf s)) := by
  unfold process_rule at h
  split_ifs at h with h1 h2 h3 h4
  · exact ⟨by simpa using h3, Or.inl ⟨h4, by injection h with h; exact h.symm⟩⟩
  · exact ⟨by simpa using h3, Or.inr ⟨by simpa using h4,
      by injection h with h; exact h.symm⟩⟩

theorem startsWithAny_ex {s : String} (h : startsWithAny prefixes s = true) :
    ∃ p ∈ prefixes, ∃ t, s.data = p.data ++ t := by
  unfold startsWithAny at h
  obtain ⟨p, hp, hpre⟩ := List.any_eq_true.mp h
  obtain ⟨t, ht⟩ := List.isPrefixOf_iff_prefix.mp hpre
  exact ⟨p, hp, t, ht.symm⟩

theorem mem_prefixes_facts : ∀ p ∈ prefixes, p.data ≠ [] ∧
    2 ≤ (p.data.map Char.toLower).length ∧
    (p.data.map Char.toLower).take 2 ≠ ['p', 'a'] ∧
    (∀ c, p.data.head? = some c → c = 'D' ∨ c = 'I' ∨ c = 'P' ∨ c = 'U') := by
  intro p hp
  fin_cases hp <;>
    exact ⟨by decide, by decide, by decide, fun c hc => by
      injection hc with hc; subst hc; decide⟩

theorem prefixed_ne_empty {x : String} (h : startsWithAny prefixes x = true) :
    x.data ≠ [] := by
  obtain ⟨p, hp, t, ht⟩ := startsWithAny_ex h
  rw [ht]
  intro e
  exact (mem_prefixes_facts p hp).1 (List.append_eq_nil.mp e).1

theorem prefixed_head_clean {x : String} (h : startsWithAny prefixes x = true) :
    ∀ c, x.data.head? = some c →
      c ∉ wsChars ∧ c ∉ decorChars ∧ c ≠ '#' := by
  obtain ⟨p, hp, t, ht⟩ := startsWithAny_ex h
  intro c hc
  have hpne := (mem_prefixes_facts p hp).1
  have h4 := (mem_prefixes_facts p hp).2.2.2
  cases hpd : p.data with
  | nil => exact absurd hpd hpne
  | cons a rest =>
    rw [ht, hpd, List.cons_append] at hc
    injection hc with hc
    subst hc
    rcases h4 a (by rw [hpd]; rfl) with rfl | rfl | rfl | rfl <;>
      exact ⟨by decide, by decide, by decide⟩

theorem prefixed_not_payload {x : String} (h : startsWithAny prefixes x = true) :
    toLowerStr x ≠ "payload:" := by
  intro he
  have hd : x.data.map Char.toLower = "payload:".data := congrArg String.data he
  obtain ⟨p, hp, t, ht⟩ := startsWithAny_ex h
  rw [ht, List.map_append] at hd
  have h2 : ((p.data.map Char.toLower) ++ (t.map Char.toLower)).take 2
      = ['p', 'a'] := by rw [hd]; rfl
  rw [List.take_append_of_le_length (mem_prefixes_facts p hp).2.1] at h2
  exact (mem_prefixes_facts p hp).2.2.1 h2

theorem mk_data (s : String) : String.mk s.data = s := rfl

theorem data_append (s t : String) : (s ++ t).data = s.data ++ t.data := rfl

theorem hasInfixL_append_front {p0 : Char} {pt pre l : List Char}
    (hpre : ∀ c ∈ pre, c ≠ p0) (h : hasInfixL (p0 :: pt) l = false) :
    hasInfixL (p0 :: pt) (pre ++ l) = false := by
  induction pre with
  | nil => exact h
  | cons a as ih =>
    have ha : (p0 == a) = false :=
      beq_eq_false_iff_ne.mpr fun e => hpre a (List.mem_cons_self a as) e.symm
    rw [List.cons_append]
    show ((p0 :: pt).isPrefixOf (a :: (as ++ l)) || hasInfixL (p0 :: pt) (as ++ l))
      = false
    rw [List.isPrefixOf_cons₂, ha, Bool.false_and, Bool.false_or]
    exact ih (fun c hc => hpre c (List.mem_cons_of_mem _ hc))

theorem coreOf_no_hash (s : String) : ∀ c ∈ (coreOf s).data, c ≠ '#' := by
  intro c hc
  have h1 : c ∈ (r1Of s).data := mem_stripCharsL hc
  have h2 : c ∈ (beforeHash s).data := mem_stripCharsL h1
  have h3 := List.mem_takeWhile_imp h2
  simpa using h3

theorem process_out_prefixed {s x : String} (h : process_rule s = some x) :
    startsWithAny prefixes x = true := by
  obtain ⟨hhtml, hcase | hcase⟩ := process_rule_cases h
  · exact hcase.2 ▸ hcase.1
  · rw [hcase.2]
    unfold startsWithAny
    apply List.any_eq_true.mpr
    refine ⟨"DOMAIN-SUFFIX,", by simp [prefixes], ?_⟩
    apply List.isPrefixOf_iff_prefix.mpr
    rw [data_append]
    exact List.prefix_append _ _

theorem process_out_no_hash {s x : String} (h : process_rule s = some x) :
    ∀ c ∈ x.data, c ≠ '#' := by
  obtain ⟨hhtml, hcase | hcase⟩ := process_rule_cases h
  · rw [hcase.2]
    exact coreOf_no_hash s
  · rw [hcase.2]
    intro c hc
    rcases List.mem_append.mp hc with hm | hm
    · have hall : ∀ d ∈ "DOMAIN-SUFFIX,".data, d ≠ '#' := by decide
      exact hall c hm
    · exact coreOf_no_hash s c hm

theorem process_out_last_decor {s x : String} (h : process_rule s = some x) :
    ∀ c, x.data.getLast? = some c → c ∉ decorChars := by
  obtain ⟨hhtml, hcase | hcase⟩ := process_rule_cases h
  · rw [hcase.2]
    exact fun c hc => stripCharsL_last hc
  · rw [hcase.2]
    intro c hc
    rw [data_append] at hc
    cases hcd : (coreOf s).data with
    | nil =>
      rw [hcd, List.append_nil] at hc
      injection hc with hc
      subst hc
      decide
    | cons a rest =>
      rw [hcd, List.getLast?_append_of_ne_nil _ (by simp)] at hc
      rw [← hcd] at hc
      exact stripCharsL_last hc

theorem process_out_no_html {s x : String} (h : process_rule s = some x) :
    hasHtmlMarker x = false := by
  obtain ⟨hhtml, hcase | hcase⟩ := process_rule_cases h
  · rw [hcase.2]
    exact hhtml
  · rw [hcase.2]
    unfold hasHtmlMarker strContainsSub at hhtml ⊢
    rw [data_append]
    simp only [Bool.or_eq_false_iff] at hhtml ⊢
    obtain ⟨⟨⟨h1, h2⟩, h3⟩, h4⟩ := hhtml
    refine ⟨⟨⟨?_, ?_⟩, ?_⟩, ?_⟩
    · simp only [decide_eq_false_iff_not, List.mem_append] at h1 ⊢
      rintro (hm | hm)
      · revert hm; decide
      · exact h1 hm
    · simp only [decide_eq_false_iff_not, List.mem_append] at h2 ⊢
      rintro (hm | hm)
      · revert hm; decide
      · exact h2 hm
    · exact hasInfixL_append_front (by decide) h3
    · exact hasInfixL_append_front (by decide) h4

theorem process_rule_fix {s x : String} (h : process_rule s = some x)
    (hws : ∀ c, x.data.getLast? = some c → c ∉ wsChars) :
    process_rule x = some x := by
  have hAny := process_out_prefixed h
  have hne : x.data ≠ [] := prefixed_ne_empty hAny
  have hhead := prefixed_head_clean hAny
  have hnohash := process_out_no_hash h
  have hlastd := process_out_last_decor h
  have hbh : beforeHash x = x := by
    unfold beforeHash
    rw [List.takeWhile_eq_self_iff.mpr (fun c hc => by simp [hnohash c hc]), mk_data]
  have hps : pyStrip x = x := by
    unfold pyStrip
    rw [stripCharsL_eq_self (fun c hc => (hhead c hc).1) hws, mk_data]
  have hsd : stripDecor x = x := by
    unfold stripDecor
    rw [stripCharsL_eq_self (fun c hc => (hhead c hc).2.1) hlastd, mk_data]
  have hr1 : r1Of x = x := by
    unfold r1Of
    rw [hbh, hps]
  have hcore : coreOf x = x := by
    unfold coreOf
    rw [hr1, hsd]
  have hxne : ¬ (x = "") := fun e => hne (by rw [e])
  have hh : ¬ (hasHtmlMarker x = true) := by
    rw [process_out_no_html h]
    exact Bool.false_ne_true
  unfold process_rule
  rw [hr1, hcore, if_neg hxne, if_neg (prefixed_not_payload hAny), if_neg hh,
    if_pos hAny]

theorem afterComma_dsuffix (y : String) : afterComma ("DOMAIN-SUFFIX," ++ y) = y := rfl

theorem data_ne_nil_of_ne_empty {s : String} (h : s ≠ "") : s.data ≠ [] :=
  fun e => h (by rw [← mk_data s, e])

theorem splitOnCharL_append {sep : Char} {r rest : List Char} (h : sep ∉ r) :
    splitOnCharL sep (r ++ sep :: rest) = r :: splitOnCharL sep rest := by
  induction r with
  | nil => simp [splitOnCharL]
  | cons a as ih =>
    have ha : ¬ (a = sep) := fun e => h (e ▸ List.mem_cons_self a as)
    rw [List.cons_append]
    show splitOnCharL sep (a :: (as ++ sep :: rest)) = (a :: as) :: splitOnCharL sep rest
    rw [show splitOnCharL sep (a :: (as ++ sep :: rest))
        = if a = sep then [] :: splitOnCharL sep (as ++ sep :: rest)
          else match splitOnCharL sep (as ++ sep :: rest) with
          | [] => [[a]]
          | h2 :: t2 => (a :: h2) :: t2 from rfl,
      if_neg ha, ih (fun hm => h (List.mem_cons_of_mem _ hm))]

theorem saveRulesTxt_lines : ∀ (rules : List String),
    (∀ r ∈ rules, '\n' ∉ r.data) →
    splitLines (saveRulesTxt rules) = rules ++ [""] := by
  intro rules
  induction rules with
  | nil => intro _; rfl
  | cons r rs ih =>
    intro h
    have hdata : (saveRulesTxt (r :: rs)).data
        = r.data ++ '\n' :: (saveRulesTxt rs).data := by
      show (r ++ "\n" ++ saveRulesTxt rs).data = _
      rw [data_append, data_append, List.append_assoc]
      rfl
    unfold splitLines
    rw [hdata, splitOnCharL_append (h r (List.mem_cons_self r rs))]
    show String.mk r.data :: (splitOnCharL '\n' (saveRulesTxt rs).data).map String.mk
      = (r :: rs) ++ [""]
    rw [mk_data]
    have := ih (fun z hz => h z (List.mem_cons_of_mem _ hz))
    unfold splitLines at this
    rw [this]
    rfl

theorem processedOf_mem {yp : String → List String} :
    ∀ {cs : List String} {m : List String} {x : String},
    processedOfContents yp cs = .ok m → x ∈ m → ∃ s, process_rule s = some x := by
  intro cs
  induction cs with
  | nil =>
    intro m x h hx
    injection h with h
    rw [← h] at hx
    cases hx
  | cons c rest ih =>
    intro m x h hx
    unfold processedOfContents at h
    cases hf : get_file_format c with
    | error e => rw [hf] at h; cases h
    | ok fmt =>
      rw [hf] at h
      cases hrest : processedOfContents yp rest with
      | error e => rw [hrest] at h; cases h
      | ok xs =>
        rw [hrest] at h
        injection h with h
        rw [← h] at hx
        rcases List.mem_append.mp hx with hm | hm
        · obtain ⟨s, _, hp⟩ := List.mem_filterMap.mp hm
          exact ⟨s, hp⟩
        · exact ih hrest hm

/- ### Claim C1 -/

/-- C1 as stated is false: a pair contributed twice by the custom sequence
appears twice in the merged payload, not exactly once. -/
theorem C1_counterexample :
    process_rule "a.com" = some "DOMAIN-SUFFIX,a.com" ∧
    ("a.com" ∈ (["a.com", "a.com"] : List String)) ∧
    (merge_rules_with_priority ["a.com", "a.com"] ["a.com"]).payload.count
        "DOMAIN-SUFFIX,a.com" = 2 ∧
    ¬ ((merge_rules_with_priority ["a.com", "a.com"] ["a.com"]).payload.count
        "DOMAIN-SUFFIX,a.com" = 1) := by decide

/-- C1 (amended): the merged payload contains a pair contributed by a custom
rule exactly as many times as the processed custom rules contain it (exactly
once when the customs contribute it once); the matching remote rule never
adds an occurrence and the custom entry always survives. -/
theorem C1_custom_priority :
    ∀ (customs remotes : List String) (c x : String),
    c ∈ customs → process_rule c = some x →
    (merge_rules_with_priority customs remotes).payload.count x
        = (processList customs).count x ∧
      x ∈ (merge_rules_with_priority customs remotes).payload := by
  intro customs remotes c x hc hpx
  have hxpc : x ∈ processList customs := List.mem_filterMap.mpr ⟨c, hc, hpx⟩
  constructor
  · exact ((sort_rules_perm _).count_eq x).trans
      (addRemotes_count_of_mem hxpc remotes)
  · exact ((sort_rules_perm _).mem_iff).mpr (addRemotes_mem.mpr (Or.inl hxpc))

/-- C1 witness at a concrete input. -/
theorem C1_custom_priority_witness :
    ("b.com" ∈ (["b.com"] : List String)) ∧
    process_rule "b.com" = some "DOMAIN-SUFFIX,b.com" ∧
    ((merge_rules_with_priority ["b.com"] ["b.com"]).payload.count
          "DOMAIN-SUFFIX,b.com"
        = (processList ["b.com"]).count "DOMAIN-SUFFIX,b.com" ∧
      "DOMAIN-SUFFIX,b.com" ∈ (merge_rules_with_priority ["b.com"] ["b.com"]).payload) :=
  ⟨by decide, by decide,
    C1_custom_priority ["b.com"] ["b.com"] "b.com" "DOMAIN-SUFFIX,b.com"
      (by decide) (by decide)⟩

/- ### Claim C2 -/

/-- C2 as stated is false for merge_rules_with_priority: duplicate custom
input rules survive into the payload. -/
theorem C2_counterexample :
    (merge_rules_with_priority ["b.com", "b.com"] []).payload
        = ["DOMAIN-SUFFIX,b.com", "DOMAIN-SUFFIX,b.com"] ∧
    ¬ (merge_rules_with_priority ["b.com", "b.com"] []).payload.Nodup := by decide

/-- C2 (amended): merge_rules always yields a duplicate-free set, and
merge_rules_with_priority does whenever the processed custom rules are
themselves duplicate-free (remote duplicates are always filtered). -/
theorem C2_merged_nodup :
    (∀ rule_sets : List (List String), (merge_rules rule_sets).Nodup) ∧
    (∀ customs remotes : List String, (processList customs).Nodup →
      (merge_rules_with_priority customs remotes).payload.Nodup) := by
  constructor
  · intro sets
    exact ((sort_rules_perm _).nodup_iff).mpr (List.nodup_dedup _)
  · intro customs remotes h
    exact ((sort_rules_perm _).nodup_iff).mpr (addRemotes_nodup h _)

/-- C2 witness at a concrete input. -/
theorem C2_merged_nodup_witness :
    (processList ["a.com"]).Nodup ∧
      (merge_rules_with_priority ["a.com"] ["c.com"]).payload.Nodup :=
  ⟨by decide, C2_merged_nodup.2 ["a.com"] ["c.com"] (by decide)⟩

/- ### Claim C3 -/

/-- C3 as stated is false: the custom rule DOMAIN-SUFFIX,z.com is sorted
after the surviving remote rule DOMAIN,a.com, so customs do not come first. -/
theorem C3_counterexample :
    processList ["z.com"] = ["DOMAIN-SUFFIX,z.com"] ∧
    (merge_rules_with_priority ["z.com"] ["DOMAIN,a.com"]).payload
        = ["DOMAIN,a.com", "DOMAIN-SUFFIX,z.com"] ∧
    (merge_rules_with_priority ["z.com"] ["DOMAIN,a.com"]).payload.head?
        ≠ some "DOMAIN-SUFFIX,z.com" := by decide

/-- C3 (amended): the whole merged sequence, custom entries included, is
sorted by the key (text before the first comma, whole line); it is a
permutation of customs-then-surviving-remotes, not that concatenation. -/
theorem C3_sorted_payload :
    ∀ (customs remotes : List String),
    List.Sorted ruleLe ((merge_rules_with_priority customs remotes).payload) ∧
    ((merge_rules_with_priority customs remotes).payload).Perm
      (addRemotes (processList customs) remotes) :=
  fun customs remotes => ⟨sort_rules_sorted _, sort_rules_perm _⟩

/- ### Claim C4 -/

/-- C4 as stated is false: a line of pure decoration characters is accepted
and yields an empty value. -/
theorem C4_counterexample :
    process_rule "..." = some "DOMAIN-SUFFIX," ∧
    afterComma "DOMAIN-SUFFIX," = "" := by decide

/-- C4 (amended): when the stripped core of an accepted line is nonempty and
carries no recognized matchType prefix, the value is exactly that core and
hence nonempty; the emptiness check precedes decoration stripping, so
all-decoration lines still produce an empty value. -/
theorem C4_value_of_unprefixed :
    ∀ (s x : String), process_rule s = some x → coreOf s ≠ "" →
    startsWithAny prefixes (coreOf s) = false →
    afterComma x = coreOf s ∧ afterComma x ≠ "" := by
  intro s x h hne hsw
  obtain ⟨hhtml, hcase | hcase⟩ := process_rule_cases h
  · rw [hcase.1] at hsw
    cases hsw
  · rw [hcase.2, afterComma_dsuffix]
    exact ⟨rfl, hne⟩

/-- C4 witness at a concrete input. -/
theorem C4_value_of_unprefixed_witness :
    process_rule "a.com" = some "DOMAIN-SUFFIX,a.com" ∧ coreOf "a.com" ≠ "" ∧
    startsWithAny prefixes (coreOf "a.com") = false ∧
    (afterComma "DOMAIN-SUFFIX,a.com" = coreOf "a.com" ∧
      afterComma "DOMAIN-SUFFIX,a.com" ≠ "") :=
  ⟨by decide, by decide, by decide,
    C4_value_of_unprefixed "a.com" "DOMAIN-SUFFIX,a.com"
      (by decide) (by decide) (by decide)⟩

/- ### Claim C5 -/

/-- C5 as stated is false: a trailing comma survives normalization into the
accepted rule. -/
theorem C5_counterexample :
    process_rule "a.com," = some "DOMAIN-SUFFIX,a.com," ∧
    "DOMAIN-SUFFIX,a.com,".data.getLast? = some ',' := by decide

/-- C5 (amended): process_rule strips only quote, plus, minus, space and dot
from the ends; it never strips a trailing comma, so an accepted rule ends in
exactly the last character of its decoration-stripped core. -/
theorem C5_trailing_char_preserved :
    ∀ (s x : String), process_rule s = some x → coreOf s ≠ "" →
    x.data.getLast? = (coreOf s).data.getLast? := by
  intro s x h hne
  obtain ⟨hhtml, hcase | hcase⟩ := process_rule_cases h
  · rw [hcase.2]
  · rw [hcase.2, data_append]
    exact List.getLast?_append_of_ne_nil _ (data_ne_nil_of_ne_empty hne)

/-- C5 witness at a concrete input. -/
theorem C5_trailing_char_preserved_witness :
    process_rule "b.com," = some "DOMAIN-SUFFIX,b.com," ∧
    coreOf "b.com," ≠ "" ∧
    "DOMAIN-SUFFIX,b.com,".data.getLast? = (coreOf "b.com,").data.getLast? :=
  ⟨by decide, by decide,
    C5_trailing_char_preserved "b.com," "DOMAIN-SUFFIX,b.com,"
      (by decide) (by decide)⟩

/- ### Claim C6 -/

/-- C6 as stated is false: the writer emits the rules verbatim with no
payload header, no quoting and no sigil mapping. -/
theorem C6_counterexample :
    saveRulesTxt ["DOMAIN,a.com", "DOMAIN-SUFFIX,b.com"]
        = "DOMAIN,a.com\nDOMAIN-SUFFIX,b.com\n" ∧
    saveRulesTxt ["DOMAIN,a.com", "DOMAIN-SUFFIX,b.com"] ≠ payloadClaimText ∧
    ("payload:".data.isPrefixOf
      (saveRulesTxt ["DOMAIN,a.com", "DOMAIN-SUFFIX,b.com"]).data) = false := by
  refine ⟨rfl, by decide, by decide⟩

/-- C6 (amended): save_rules_txt writes each rule verbatim followed by one
newline, nothing else: the two sample rules encode to
DOMAIN,a.com then DOMAIN-SUFFIX,b.com, newline-terminated, and splitting the
output on newlines recovers any newline-free rule list exactly. -/
theorem C6_verbatim_lines :
    saveRulesTxt ["DOMAIN,a.com", "DOMAIN-SUFFIX,b.com"]
        = "DOMAIN,a.com\nDOMAIN-SUFFIX,b.com\n" ∧
    ∀ (rules : List String), (∀ r ∈ rules, '\n' ∉ r.data) →
      splitLines (saveRulesTxt rules) = rules ++ [""] :=
  ⟨rfl, saveRulesTxt_lines⟩

/-- C6 witness at a concrete input. -/
theorem C6_verbatim_lines_witness :
    (∀ r ∈ (["DOMAIN,x.com"] : List String), '\n' ∉ r.data) ∧
    splitLines (saveRulesTxt ["DOMAIN,x.com"]) = ["DOMAIN,x.com"] ++ [""] :=
  ⟨by decide, C6_verbatim_lines.2 ["DOMAIN,x.com"] (by decide)⟩

/- ### Claim C7 -/

/-- C7 as stated is false: no policy token is appended to the unified
output lines; an Ai rule is written as DOMAIN,b.com, not DOMAIN,b.com,PROXY. -/
theorem C7_counterexample :
    mergeProxyAiLines noYaml [("Ai", ["DOMAIN,b.com"])] = .ok ["DOMAIN,b.com"] ∧
    (",PROXY".data.isSuffixOf "DOMAIN,b.com".data) = false ∧
    "DOMAIN,b.com" ≠ "DOMAIN,b.com,PROXY" :=
  ⟨rfl, by decide, by decide⟩

/-- C7 (amended): every line of the unified Proxy+Ai output is a bare
processed rule written verbatim, starting with one of the nine matchType
prefixes; the lines are deduplicated and sorted and no policy token is
appended (the Ai category gets no special treatment). -/
theorem C7_output_lines :
    ∀ (yp : String → List String) (all : List (String × List String))
      (lines : List String),
    mergeProxyAiLines yp all = .ok lines →
    lines.Nodup ∧ List.Sorted ruleLe lines ∧
      ∀ r ∈ lines, startsWithAny prefixes r = true := by
  intro yp all lines h
  unfold mergeProxyAiLines at h
  cases hpc : processedOfContents yp
      (contentsFor all "Proxy" ++ contentsFor all "Ai") with
  | error e => rw [hpc] at h; cases h
  | ok merged =>
    rw [hpc] at h
    injection h with h
    subst h
    refine ⟨((sort_rules_perm _).nodup_iff).mpr (List.nodup_dedup _),
      sort_rules_sorted _, fun r hr => ?_⟩
    have hr2 : r ∈ merged.dedup := ((sort_rules_perm _).mem_iff).mp hr
    obtain ⟨s, hs⟩ := processedOf_mem hpc (List.mem_dedup.mp hr2)
    exact process_out_prefixed hs

/-- C7 witness at a concrete input. -/
theorem C7_output_lines_witness :
    (["DOMAIN,a.com"] : List String).Nodup ∧
    List.Sorted ruleLe ["DOMAIN,a.com"] ∧
    ∀ r ∈ (["DOMAIN,a.com"] : List String), startsWithAny prefixes r = true :=
  C7_output_lines noYaml [("Proxy", ["DOMAIN,a.com"])] ["DOMAIN,a.com"] rfl

/- ### Claim C8 -/

/-- C8 as stated is false: duplicated custom entries survive the first merge
but are collapsed when the payload is fed back in as remote rules. -/
theorem C8_counterexample :
    (merge_rules_with_priority ["c.com", "c.com"] []).payload
        = ["DOMAIN-SUFFIX,c.com", "DOMAIN-SUFFIX,c.com"] ∧
    (merge_rules_with_priority []
        ((merge_rules_with_priority ["c.com", "c.com"] []).payload)).payload
        = ["DOMAIN-SUFFIX,c.com"] ∧
    (merge_rules_with_priority []
        ((merge_rules_with_priority ["c.com", "c.com"] []).payload)).payload
        ≠ (merge_rules_with_priority ["c.com", "c.com"] []).payload := by decide

/-- C8 (amended): the priority merge is idempotent provided the processed
custom rules are duplicate-free and no merged rule ends in a whitespace
character (such rules would be re-trimmed by the second pass). -/
theorem C8_idempotent_of_nodup :
    ∀ (customs remotes : List String),
    (processList customs).Nodup →
    (∀ x ∈ (merge_rules_with_priority customs remotes).payload,
      ∀ c ∈ wsChars, x.data.getLast? ≠ some c) →
    (merge_rules_with_priority []
        ((merge_rules_with_priority customs remotes).payload)).payload
      = (merge_rules_with_priority customs remotes).payload := by
  intro customs remotes hnd hws
  have hmnd : (addRemotes (processList customs) remotes).Nodup :=
    addRemotes_nodup hnd _
  have hPnd : ((merge_rules_with_priority customs remotes).payload).Nodup :=
    ((sort_rules_perm _).nodup_iff).mpr hmnd
  have hPsorted : List.Sorted ruleLe
      ((merge_rules_with_priority customs remotes).payload) :=
    sort_rules_sorted _
  have hfix : ∀ x ∈ (merge_rules_with_priority customs remotes).payload,
      process_rule x = some x := by
    intro x hx
    have hlast : ∀ c, x.data.getLast? = some c → c ∉ wsChars :=
      fun c hc hcw => hws x hx c hcw hc
    have hx2 : x ∈ addRemotes (processList customs) remotes :=
      ((sort_rules_perm _).mem_iff).mp hx
    rcases addRemotes_mem.mp hx2 with hpc | ⟨r, _, hpr⟩
    · obtain ⟨r, _, hpr⟩ := List.mem_filterMap.mp hpc
      exact process_rule_fix hpr hlast
    · exact process_rule_fix hpr hlast
  show sort_rules (addRemotes (processList [])
    ((merge_rules_with_priority customs remotes).payload)) = _
  rw [show processList ([] : List String) = [] from rfl,
    addRemotes_fixed _ [] hfix hPnd, List.nil_append]
  exact sort_rules_of_sorted hPsorted

/-- C8 witness at a concrete input. -/
theorem C8_idempotent_of_nodup_witness :
    (processList ["a.com"]).Nodup ∧
    (∀ x ∈ (merge_rules_with_priority ["a.com"] ["DOMAIN,b.com"]).payload,
      ∀ c ∈ wsChars, x.data.getLast? ≠ some c) ∧
    (merge_rules_with_priority []
        ((merge_rules_with_priority ["a.com"] ["DOMAIN,b.com"]).payload)).payload
      = (merge_rules_with_priority ["a.com"] ["DOMAIN,b.com"]).payload :=
  ⟨by decide, by decide,
    C8_idempotent_of_nodup ["a.com"] ["DOMAIN,b.com"] (by decide) (by decide)⟩

/- ### Claim C9 -/

/-- C9: permuting the remote rules does not change the merged payload. -/
theorem C9_remote_order_irrelevant :
    ∀ (customs remotes1 remotes2 : List String), remotes1.Perm remotes2 →
    (merge_rules_with_priority customs remotes1).payload
      = (merge_rules_with_priority customs remotes2).payload := by
  intro customs r1 r2 hp
  obtain ⟨e1, he1, hn1, hm1⟩ := addRemotes_spec r1 (processList customs)
  obtain ⟨e2, he2, hn2, hm2⟩ := addRemotes_spec r2 (processList customs)
  have hperm : e1.Perm e2 := by
    rw [List.perm_ext_iff_of_nodup hn1 hn2]
    intro a
    rw [hm1, hm2]
    constructor
    · rintro ⟨ha, r, hr, hpr⟩
      exact ⟨ha, r, hp.mem_iff.mp hr, hpr⟩
    · rintro ⟨ha, r, hr, hpr⟩
      exact ⟨ha, r, hp.mem_iff.mpr hr, hpr⟩
  show sort_rules (addRemotes (processList customs) r1)
    = sort_rules (addRemotes (processList customs) r2)
  rw [he1, he2]
  exact sort_rules_eq_of_perm (List.Perm.append_left _ hperm)

/-- C9 witness at a concrete input. -/
theorem C9_remote_order_irrelevant_witness :
    (["a.com", "DOMAIN,b.com"] : List String).Perm ["DOMAIN,b.com", "a.com"] ∧
    (merge_rules_with_priority ["z.com"] ["a.com", "DOMAIN,b.com"]).payload
      = (merge_rules_with_priority ["z.com"] ["DOMAIN,b.com", "a.com"]).payload :=
  ⟨by decide, C9_remote_order_irrelevant ["z.com"] ["a.com", "DOMAIN,b.com"]
    ["DOMAIN,b.com", "a.com"] (by decide)⟩

/- ### Claim C10 -/

/-- C10: on a non-URL input, format sniffing never reaches the
unsupported-format error and yields txt or yml. -/
theorem C10_sniff_total :
    ∀ s : String,
    "http://".data.isPrefixOf s.data = false →
    "https://".data.isPrefixOf s.data = false →
    ∃ f, get_file_format s = Except.ok f ∧ (f = "txt" ∨ f = "yml") := by
  intro s h1 h2
  unfold get_file_format
  rw [if_neg (by simp [h1, h2])]
  split_ifs with hA hB
  · exact ⟨"txt", rfl, Or.inl rfl⟩
  · exact ⟨"yml", rfl, Or.inr rfl⟩
  · exact ⟨"txt", rfl, Or.inl rfl⟩

/-- C10 witness at a concrete input. -/
theorem C10_sniff_total_witness :
    ("http://".data.isPrefixOf "DOMAIN,a.com".data = false) ∧
    ("https://".data.isPrefixOf "DOMAIN,a.com".data = false) ∧
    ∃ f, get_file_format "DOMAIN,a.com" = Except.ok f ∧ (f = "txt" ∨ f = "yml") :=
  ⟨by decide, by decide, C10_sniff_total "DOMAIN,a.com" (by decide) (by decide)⟩
